import Mathlib

/-!
Verification of the fingerprinting / matching core of `backend/app/fp.py`
(landmark-style audio fingerprinting).

The Python source is shallowly embedded:
* Python ints become `ℕ` (or `ℤ` where values can be negative, such as
  frame offsets `ref_t - query_t`);
* Python floats become `ℚ` (the claims under study only concern exact
  arithmetic identities, orderings and clipping, never rounding);
* numpy 2-D arrays become lists of columns (`peaks[:, t]` becomes the
  `t`-th element of a `List (List ℕ)`);
* Python dicts become association lists kept in insertion order, which is
  exactly the iteration order of a Python `dict`;
* functions that can raise become `Option`-valued, `none` marking the raise.
-/

namespace EarPeace

/-- Tunable fingerprint parameters, from `fp.py` (`N_FFT = 2048`). -/
def N_FFT : ℕ := 2048

/-- `HOP = 512` from `fp.py`. -/
def HOP : ℕ := 512

/-- `TOP_K = 5` from `fp.py`. -/
def TOP_K : ℕ := 5

/-- `FAN_OUT = 5` from `fp.py`. -/
def FAN_OUT : ℕ := 5

/-- `MIN_DT = 1` from `fp.py`. -/
def MIN_DT : ℕ := 1

/-- `MAX_DT = 50` from `fp.py`. -/
def MAX_DT : ℕ := 50

/-- `FPIndex` dataclass from `fp.py`: sample rate, hop size, and the
`hash -> list of frame indices` dictionary, modelled as an association
list in insertion order (Python dicts iterate in insertion order). -/
structure FPIndex where
  sr : ℕ
  hop : ℕ
  hash_to_times : List (ℕ × List ℕ)
deriving DecidableEq, Repr

/-- `d.get(h)` on the hash dictionary: first association wins (keys of a
Python dict are unique, so first = only). -/
def lookupTimes : List (ℕ × List ℕ) → ℕ → Option (List ℕ)
  | [], _ => none
  | e :: rest, h => if e.1 = h then some e.2 else lookupTimes rest h

/-- The hash-packing expression of `build_hashes`:
`h = ((f1 & 0x3FF) << 20) | ((f2 & 0x3FF) << 10) | (dt & 0x3FF)`. -/
def packHash (f1 f2 dt : ℕ) : ℕ :=
  ((f1 &&& 1023) <<< 20) ||| ((f2 &&& 1023) <<< 10) ||| (dt &&& 1023)

/-- `build_hashes(peaks, fan_out, min_dt, max_dt)` from `fp.py`.

`peaks` is the numpy array of shape `(top_k, frames)` stored column-wise:
element `t` of the list is the column `peaks[:, t]` (the top peak bins of
frame `t`); numpy arrays are rectangular, so every column has length
`top_k` and the source's `top_k, frames = peaks.shape` is recovered as the
length of the first column.  The loops mirror the source exactly:
`for t in range(frames)`, `for k in range(top_k)` (iterating the anchor
column), `for dt in range(min_dt, min(max_dt, frames - t))` (Python
`range` excludes its upper bound), `for m in range(min(fan_out, top_k))`
(taking a prefix of the target column). -/
def build_hashes (peaks : List (List ℕ)) (fan_out min_dt max_dt : ℕ) :
    List (ℕ × ℕ) :=
  let frames := peaks.length
  let top_k := (peaks.headD []).length
  (List.range frames).flatMap fun t =>
    (peaks.getD t []).flatMap fun f1 =>
      ((List.range (min max_dt (frames - t))).drop min_dt).flatMap fun dt =>
        ((peaks.getD (t + dt) []).take (min fan_out top_k)).map fun f2 =>
          (packHash f1 f2 dt, t)

/-- Largest absolute sample value, `np.max(np.abs(y))` (0 for the empty
signal, matching numpy only on the nonempty signals the callers feed it). -/
def maxAbs (y : List ℚ) : ℚ :=
  y.foldl (fun m x => max m |x|) 0

/-- The normalization step of `read_mono_wav` (the file decoding and the
channel averaging in front of it are external I/O; the embedding receives
the decoded mono samples directly): divide by the maximum absolute sample
when that maximum is positive, otherwise pass the signal through. -/
def normalizeSig (y : List ℚ) : List ℚ :=
  if maxAbs y > 0 then y.map fun x => x / maxAbs y else y

/-- Modelled from the spec: the framing performed by `scipy.signal.stft`
(an external library, not part of this repository) when called as in
`compute_peaks`, i.e. with `boundary=None` and the default `padded=True`.
Per the scipy documentation and the spec of the Spectral Analyzer:
windows of `nperseg` samples advance by `nstep = nperseg - noverlap`
samples; with `padded=True` the signal is zero-padded at the end so that
it fits an integer number of segments (`nadd` zeros, making
`len + nadd - nperseg` divisible by `nstep`).  scipy shrinks `nperseg` to
the input length when the input is shorter than one window
(`_triage_segments`) and raises `ValueError` when `noverlap` is not
smaller than the (possibly shrunk) `nperseg`; the raise is modelled as
`none`. -/
def stftWindows (y : List ℚ) (nperseg noverlap : ℕ) : Option (List (List ℚ)) :=
  if y.length ≤ noverlap then none
  else
    let np := min nperseg y.length
    let nstep := np - noverlap
    let d := y.length - np
    let nadd := (nstep - d % nstep) % nstep
    let yp := y ++ List.replicate nadd 0
    let nseg := (y.length + nadd - np) / nstep + 1
    some ((List.range nseg).map fun i => (yp.drop (i * nstep)).take np)

/-- Modelled from the spec: the per-window magnitude spectrum
`np.abs(scipy.signal.stft(...))` (external library).  The spec requires a
non-negative magnitude per frequency bin, `nfft/2 + 1` bins per frame
(one-sided transform of real input), and — by linearity of the transform —
an all-zero magnitude column for an all-zero window.  No claim under
study depends on the actual Fourier values, only on those properties and
on the frame structure, so the magnitude of bin `k` is modelled by the
absolute value of sample `k` of the window (windows are at least
`nfft/2 + 1` samples long in every reachable call). -/
def specMag (nfft : ℕ) (w : List ℚ) : List ℚ :=
  (w.take (nfft / 2 + 1)).map fun x => |x|

/-- Modelled from the spec: `np.log1p`, the dynamic-range compression of
`compute_peaks`.  `log1p` is irrational; the spec only requires the
compression to be strictly monotone (peak selection consumes nothing but
the ordering of magnitudes), so it is modelled by the strictly monotone
rational map `x / (1 + x)` on the non-negative magnitudes. -/
def log1pQ (x : ℚ) : ℚ := x / (1 + x)

/-- Insert a `(value, bin)` pair into a buffer kept sorted by value in
strictly decreasing order of priority: the new pair passes only entries
with strictly larger value, so among equal values the earlier bin stays
in front (a stable selection). -/
def topInsert (p : ℚ × ℕ) : List (ℚ × ℕ) → List (ℚ × ℕ)
  | [] => [p]
  | q :: rest => if p.1 > q.1 then p :: q :: rest else q :: topInsert p rest

/-- Modelled from the spec: the per-frame top-`k` selection
`np.argpartition(-S_log, kth=min(top_k, bins-1), axis=0)[:top_k, :]`
(external library).  `argpartition` returns, for each column, `top_k` bin
indices holding the `top_k` largest magnitudes, in no guaranteed order and
with unspecified tie order; the spec (§4.3) fixes "ties broken arbitrarily
but deterministically".  Modelled as the deterministic stable selection:
the `min k bins` indices of largest value, ties preferring the smaller
bin index, ordered by decreasing value. -/
def topKIdx (k : ℕ) (v : List ℚ) : List ℕ :=
  ((v.enum.foldl (fun buf p => (topInsert (p.2, p.1) buf).take k) []).map
    fun q => q.2)

/-- `compute_peaks(y, sr, n_fft, hop, top_k)` from `fp.py`: short-time
magnitude spectrum (`noverlap = n_fft - hop`), `log1p` compression,
per-frame top-`top_k` peak bins.  Returns the peak columns (element `t`
is `peaks[:, t]`) together with the hop, exactly as the source returns
`(peaks, hop)`.  `sr` is passed to scipy as `fs`, which only scales the
returned frequency/time axes, never the transform values, so it does not
enter the model.  `none` models the scipy `ValueError` raise on a signal
not longer than `noverlap` samples. -/
def compute_peaks (y : List ℚ) (n_fft hop top_k : ℕ) :
    Option (List (List ℕ) × ℕ) :=
  (stftWindows y n_fft (n_fft - hop)).map fun ws =>
    (ws.map fun w => topKIdx top_k ((specMag n_fft w).map log1pQ), hop)

/-- One offset vote: `offsets[off] = offsets.get(off, 0) + 1` on a Python
dict, modelled on the insertion-ordered association list: increment in
place when the key exists, append `(off, 1)` otherwise. -/
def bump : List (ℤ × ℕ) → ℤ → List (ℤ × ℕ)
  | [], off => [(off, 1)]
  | e :: rest, off =>
      if e.1 = off then (e.1, e.2 + 1) :: rest else e :: bump rest off

/-- The inner loop `for tr in tlist: offsets[tr - tq] += 1`. -/
def addVotes (o : List (ℤ × ℕ)) (tq : ℕ) (tlist : List ℕ) : List (ℤ × ℕ) :=
  tlist.foldl (fun acc (tr : ℕ) => bump acc ((tr : ℤ) - (tq : ℤ))) o

/-- One step of the histogram loop of `match_query`: look the query hash
up in the candidate's dictionary and, unless the entry is missing or empty
(`if not tlist: continue`), add one vote per recorded reference frame. -/
def histStep (tbl : List (ℕ × List ℕ)) (o : List (ℤ × ℕ)) (p : ℕ × ℕ) :
    List (ℤ × ℕ) :=
  match lookupTimes tbl p.1 with
  | none => o
  | some tlist => if tlist = [] then o else addVotes o p.2 tlist

/-- The per-candidate offset histogram of `match_query` (the `hits`
counter of the source is dead code: nothing reads it). -/
def histogram (q_hashes : List (ℕ × ℕ)) (idx : FPIndex) : List (ℤ × ℕ) :=
  q_hashes.foldl (histStep idx.hash_to_times) []

/-- `max(offsets.items(), key=lambda kv: kv[1])` on a nonempty dict:
Python's `max` keeps the first maximal item in iteration order, i.e. the
first-seen offset among equal vote counts. -/
def maxEntry : List (ℤ × ℕ) → Option (ℤ × ℕ)
  | [] => none
  | e :: rest => some (rest.foldl (fun b x => if x.2 > b.2 then x else b) e)

/-- One iteration of the candidate loop of `match_query`, acting on the
running state `(best_key, best_offset_frames, best_votes)`.  A candidate
is a pair of its key and the result of `load_index` on its path, `none`
modelling the exception swallowed by `try .. except: continue`. -/
def stepCand (q_hashes : List (ℕ × ℕ)) (st : Option String × ℤ × ℕ)
    (c : String × Option FPIndex) : Option String × ℤ × ℕ :=
  match c.2 with
  | none => st
  | some idx =>
      match maxEntry (histogram q_hashes idx) with
      | none => st
      | some (off, votes) =>
          if votes > st.2.2 then (some c.1, off, votes) else st

/-- The whole candidate loop of `match_query`, starting from
`best_key = None`, `best_votes = 0`, `best_offset_frames = 0`. -/
def matchLoop (q_hashes : List (ℕ × ℕ))
    (indices : List (String × Option FPIndex)) : Option String × ℤ × ℕ :=
  indices.foldl (stepCand q_hashes) (none, 0, 0)

/-- `match_query(query_wav, indices)` from `fp.py`.  The wav decoding of
`read_mono_wav` is external I/O; the embedding receives the decoded
`(sr, y)` directly and applies the normalization step itself.  `indices`
is the Python dict `key -> path` together with the outcome of
`load_index` on each path (`none` = the load raised), listed in dict
(= insertion) order.  The outer `none` models an uncaught exception
(scipy raising on a too-short query); otherwise the result is the
source's `(best_key, offset_seconds, confidence)` triple. -/
def match_query (sr : ℕ) (yRaw : List ℚ)
    (indices : List (String × Option FPIndex)) :
    Option (Option String × ℚ × ℚ) :=
  match compute_peaks (normalizeSig yRaw) N_FFT HOP TOP_K with
  | none => none
  | some (peaks, hop) =>
      let q_hashes := build_hashes peaks FAN_OUT MIN_DT MAX_DT
      if q_hashes = [] then some (none, 0, 0)
      else
        match matchLoop q_hashes indices with
        | (none, _, _) => some (none, 0, 0)
        | (some key, best_off, best_votes) =>
            some (some key,
              ((best_off * (hop : ℤ) : ℤ) : ℚ) / (sr : ℚ),
              min 1 ((best_votes : ℚ) / ((max 1 q_hashes.length : ℕ) : ℚ)))

/-- The query hashes `match_query` computes for a given decoded signal
(empty when the spectral transform raises — `match_query` then returns
`none` before using them). -/
def queryHashes (y : List ℚ) : List (ℕ × ℕ) :=
  match compute_peaks (normalizeSig y) N_FFT HOP TOP_K with
  | none => []
  | some (peaks, _) => build_hashes peaks FAN_OUT MIN_DT MAX_DT

/-- The best entry (offset, votes) a candidate contributes: `none` when
its index failed to load or its histogram is empty. -/
def candBest (q_hashes : List (ℕ × ℕ)) (c : String × Option FPIndex) :
    Option (ℤ × ℕ) :=
  match c.2 with
  | none => none
  | some idx => maxEntry (histogram q_hashes idx)

/-- A candidate's score: its highest offset-histogram vote count, 0 when
its index failed to load or its histogram is empty. -/
def candScore (q_hashes : List (ℕ × ℕ)) (c : String × Option FPIndex) : ℕ :=
  ((candBest q_hashes c).map fun e => e.2).getD 0

/-- A candidate's winning offset (0 in the no-score cases). -/
def candOff (q_hashes : List (ℕ × ℕ)) (c : String × Option FPIndex) : ℤ :=
  ((candBest q_hashes c).map fun e => e.1).getD 0

/-- Modelled from the spec: `pickle.dump` of `save_index` (pickle is an
external library).  §4.5/§6 require the persisted blob to capture the
sample rate, the hop and the complete hash→frame-list mapping losslessly;
the blob is modelled as a flat word list: `sr`, `hop`, the number of
dictionary entries, then each entry as its hash, its frame count and its
frames. -/
def save_index (idx : FPIndex) : List ℕ :=
  idx.sr :: idx.hop :: idx.hash_to_times.length ::
    idx.hash_to_times.flatMap fun e => e.1 :: e.2.length :: e.2

/-- Decode `n` serialized dictionary entries from the blob, returning the
entries and the remaining words; `none` on a truncated blob. -/
def decodeEntries : ℕ → List ℕ → Option (List (ℕ × List ℕ) × List ℕ)
  | 0, blob => some ([], blob)
  | n + 1, h :: len :: rest =>
      match decodeEntries n (rest.drop len) with
      | some (es, rem) => some ((h, rest.take len) :: es, rem)
      | none => none
  | _ + 1, [] => none
  | _ + 1, [_] => none

/-- Modelled from the spec: `pickle.load` of `load_index` (external
library); parses the blob written by `save_index` back into an `FPIndex`,
`none` modelling the unpickling error on a corrupt blob. -/
def load_index (blob : List ℕ) : Option FPIndex :=
  match blob with
  | sr :: hop :: n :: rest =>
      match decodeEntries n rest with
      | some (es, _) => some ⟨sr, hop, es⟩
      | none => none
  | _ => none

/-! ### Arithmetic form of the packed hash -/

theorem lor_add_of_lt {a b : ℕ} (i : ℕ) (hb : b < 2 ^ i) :
    2 ^ i * a ||| b = 2 ^ i * a + b :=
  (Nat.mul_add_lt_is_or hb a).symm

/-- The bit-packing of `build_hashes` in plain arithmetic: the three
fields are reduced mod `2^10` and occupy disjoint bit ranges. -/
theorem packHash_eq (f1 f2 dt : ℕ) :
    packHash f1 f2 dt =
      (f1 % 1024) * 2 ^ 20 + (f2 % 1024) * 2 ^ 10 + dt % 1024 := by
  have h1023 : (1023 : ℕ) = 2 ^ 10 - 1 := by norm_num
  have hmask : ∀ x : ℕ, x &&& 1023 = x % 1024 := by
    intro x
    rw [h1023, Nat.and_pow_two_sub_one_eq_mod]
  have hf2 : (f2 % 1024) * 2 ^ 10 + dt % 1024 < 2 ^ 20 := by
    have := Nat.mod_lt f2 (y := 1024) (by norm_num)
    have := Nat.mod_lt dt (y := 1024) (by norm_num)
    omega
  have hdt : dt % 1024 < 2 ^ 10 := by
    have := Nat.mod_lt dt (y := 1024) (by norm_num)
    omega
  calc packHash f1 f2 dt
      = (f1 % 1024) <<< 20 ||| ((f2 % 1024) <<< 10 ||| dt % 1024) := by
        rw [packHash, hmask, hmask, hmask, Nat.lor_assoc]
    _ = 2 ^ 20 * (f1 % 1024) ||| (2 ^ 10 * (f2 % 1024) ||| dt % 1024) := by
        rw [Nat.shiftLeft_eq, Nat.shiftLeft_eq, Nat.mul_comm (f1 % 1024),
          Nat.mul_comm (f2 % 1024)]
    _ = 2 ^ 20 * (f1 % 1024) + (2 ^ 10 * (f2 % 1024) + dt % 1024) := by
        rw [lor_add_of_lt 10 hdt, lor_add_of_lt 20 (by omega)]
    _ = (f1 % 1024) * 2 ^ 20 + (f2 % 1024) * 2 ^ 10 + dt % 1024 := by ring

/-- Every packed hash is below `2^30`. -/
theorem packHash_lt (f1 f2 dt : ℕ) : packHash f1 f2 dt < 2 ^ 30 := by
  rw [packHash_eq]
  have := Nat.mod_lt f1 (y := 1024) (by norm_num)
  have := Nat.mod_lt f2 (y := 1024) (by norm_num)
  have := Nat.mod_lt dt (y := 1024) (by norm_num)
  omega

/-! ### Claims C1, C8, C10: the landmark hasher -/

/-- C1 (code bug evaluation): the claim states that for an anchor `t`
with `total_frames - 1 - t ≥ dmax` a hash with `dt = dmax` is emitted.
On five single-peak frames with `dmin = 1`, `dmax = 3` the anchor `t = 0`
has `total_frames - 1 - t = 4 ≥ 3`, yet no emitted hash carries
`dt = 3` (the Python `range` excludes its upper bound, contradicting the
source's own comment "within [min_dt, max_dt]"); the largest emitted
delta is `dt = 2`. -/
theorem claim_C1_dmax_never_emitted :
    packHash 0 0 3 ∉ (build_hashes (List.replicate 5 [0]) 5 1 3).map Prod.fst ∧
    (packHash 0 0 2, 0) ∈ build_hashes (List.replicate 5 [0]) 5 1 3 := by
  decide

/-- C8: hash packing is injective on triples whose fields all lie in
`[0, 1024)`: two distinct in-range triples never produce the same hash
value (the packing itself is a function, hence deterministic). -/
theorem claim_C8_pack_injective (a b c a' b' c' : ℕ)
    (ha : a < 1024) (hb : b < 1024) (hc : c < 1024)
    (ha' : a' < 1024) (hb' : b' < 1024) (hc' : c' < 1024)
    (hne : (a, b, c) ≠ (a', b', c')) :
    packHash a b c ≠ packHash a' b' c' := by
  intro he
  rw [packHash_eq, packHash_eq] at he
  apply hne
  have h3 : a = a' ∧ b = b' ∧ c = c' := by
    rw [Nat.mod_eq_of_lt ha, Nat.mod_eq_of_lt hb, Nat.mod_eq_of_lt hc,
      Nat.mod_eq_of_lt ha', Nat.mod_eq_of_lt hb', Nat.mod_eq_of_lt hc'] at he
    omega
  rw [h3.1, h3.2.1, h3.2.2]

/-- Witness for C8 at the concrete in-range triples `(0,0,0)` and
`(0,0,1)`. -/
theorem claim_C8_witness : packHash 0 0 0 ≠ packHash 0 0 1 :=
  claim_C8_pack_injective 0 0 0 0 0 1 (by decide) (by decide) (by decide)
    (by decide) (by decide) (by decide) (by decide)

/-- C10: every hash emitted by `build_hashes` lies in `[0, 2^30)`, for
every peak array and every parameter choice, the fields being masked to
10 bits before packing. -/
theorem claim_C10_hash_range (peaks : List (List ℕ))
    (fan_out min_dt max_dt : ℕ) (p : ℕ × ℕ)
    (hp : p ∈ build_hashes peaks fan_out min_dt max_dt) : p.1 < 2 ^ 30 := by
  unfold build_hashes at hp
  simp only [List.mem_flatMap, List.mem_map] at hp
  obtain ⟨t, -, f1, -, dt, -, f2, -, hpe⟩ := hp
  rw [← hpe]
  exact packHash_lt f1 f2 dt

/-- Witness for C10 at a concrete peak array whose peak bins (2000, 3000)
exceed the 10-bit field width. -/
theorem claim_C10_witness : ((packHash 2000 3000 1, 0) : ℕ × ℕ).1 < 2 ^ 30 :=
  claim_C10_hash_range [[2000], [3000]] FAN_OUT MIN_DT MAX_DT
    (packHash 2000 3000 1, 0) (by decide)

/-! ### Claim C4: persistence round-trip -/

theorem decodeEntries_cons (n h len : ℕ) (r : List ℕ) :
    decodeEntries (n + 1) (h :: len :: r) =
      match decodeEntries n (r.drop len) with
      | some (es, rem) => some ((h, r.take len) :: es, rem)
      | none => none := rfl

theorem decodeEntries_roundtrip (es : List (ℕ × List ℕ)) (tail : List ℕ) :
    decodeEntries es.length
      ((es.flatMap fun e => e.1 :: e.2.length :: e.2) ++ tail) =
      some (es, tail) := by
  induction es with
  | nil => rfl
  | cons e rest ih =>
      have hb : ((e :: rest).flatMap fun x => x.1 :: x.2.length :: x.2) ++ tail =
          e.1 :: e.2.length ::
            (e.2 ++ ((rest.flatMap fun x => x.1 :: x.2.length :: x.2) ++ tail)) := by
        simp
      rw [hb, List.length_cons, decodeEntries_cons, List.drop_left,
        List.take_left, ih]

/-- C4: saving an index and loading the blob back reproduces the index
exactly — in particular the same sample rate, the same hop and the same
frame-index list (hence the same set of frame indices) for every hash. -/
theorem claim_C4_roundtrip (idx : FPIndex) :
    load_index (save_index idx) = some idx := by
  have h := decodeEntries_roundtrip idx.hash_to_times []
  rw [List.append_nil] at h
  simp only [load_index, save_index, h]

/-! ### The candidate loop of the matcher -/

theorem foldl_max_mem (r : List (ℤ × ℕ)) : ∀ b : ℤ × ℕ,
    r.foldl (fun b x => if x.2 > b.2 then x else b) b ∈ b :: r := by
  induction r with
  | nil => intro b; exact List.mem_cons_self ..
  | cons x xs ih =>
      intro b
      rw [List.foldl_cons]
      rcases List.mem_cons.mp (ih (if x.2 > b.2 then x else b)) with h | h
      · rw [h]
        by_cases hx : x.2 > b.2
        · rw [if_pos hx]
          exact List.mem_cons_of_mem _ (List.mem_cons_self ..)
        · rw [if_neg hx]
          exact List.mem_cons_self ..
      · exact List.mem_cons_of_mem _ (List.mem_cons_of_mem _ h)

theorem maxEntry_mem (l : List (ℤ × ℕ)) (e : ℤ × ℕ)
    (h : maxEntry l = some e) : e ∈ l := by
  match l with
  | [] => cases h
  | a :: rest =>
      simp only [maxEntry, Option.some.injEq] at h
      exact h ▸ foldl_max_mem rest a

theorem maxEntry_eq_none (l : List (ℤ × ℕ)) : maxEntry l = none ↔ l = [] := by
  cases l <;> simp [maxEntry]

theorem bump_pos (l : List (ℤ × ℕ)) (off : ℤ) (hl : ∀ e ∈ l, 1 ≤ e.2) :
    ∀ e ∈ bump l off, 1 ≤ e.2 := by
  induction l with
  | nil => simp [bump]
  | cons a rest ih =>
      intro e he
      rw [bump] at he
      by_cases ha : a.1 = off
      · rw [if_pos ha] at he
        rcases List.mem_cons.mp he with h | h
        · rw [h]
          show 1 ≤ a.2 + 1
          omega
        · exact hl e (List.mem_cons_of_mem _ h)
      · rw [if_neg ha] at he
        rcases List.mem_cons.mp he with h | h
        · exact h ▸ hl a (List.mem_cons_self ..)
        · exact ih (fun x hx => hl x (List.mem_cons_of_mem _ hx)) e h

theorem addVotes_pos (o : List (ℤ × ℕ)) (tq : ℕ) (tlist : List ℕ)
    (ho : ∀ e ∈ o, 1 ≤ e.2) : ∀ e ∈ addVotes o tq tlist, 1 ≤ e.2 := by
  induction tlist generalizing o with
  | nil => simpa [addVotes] using ho
  | cons tr rest ih =>
      intro e he
      rw [addVotes, List.foldl_cons] at he
      exact ih _ (bump_pos o _ ho) e he

theorem histStep_pos (tbl : List (ℕ × List ℕ)) (o : List (ℤ × ℕ)) (p : ℕ × ℕ)
    (ho : ∀ e ∈ o, 1 ≤ e.2) : ∀ e ∈ histStep tbl o p, 1 ≤ e.2 := by
  rw [histStep]
  rcases lookupTimes tbl p.1 with _ | tlist
  · exact ho
  · simp only
    by_cases ht : tlist = []
    · rw [if_pos ht]; exact ho
    · rw [if_neg ht]; exact addVotes_pos o p.2 tlist ho

theorem histogram_pos (q_hashes : List (ℕ × ℕ)) (idx : FPIndex) :
    ∀ e ∈ histogram q_hashes idx, 1 ≤ e.2 := by
  rw [histogram]
  suffices hgen : ∀ (l : List (ℕ × ℕ)) (o : List (ℤ × ℕ)),
      (∀ e ∈ o, 1 ≤ e.2) →
      ∀ e ∈ l.foldl (histStep idx.hash_to_times) o, 1 ≤ e.2 by
    exact hgen q_hashes [] (by simp)
  intro l
  induction l with
  | nil => intro o ho; simpa using ho
  | cons p rest ih =>
      intro o ho
      rw [List.foldl_cons]
      exact ih _ (histStep_pos idx.hash_to_times o p ho)

theorem candBest_score_pos (q_hashes : List (ℕ × ℕ))
    (c : String × Option FPIndex) (off : ℤ) (v : ℕ)
    (h : candBest q_hashes c = some (off, v)) : 1 ≤ v := by
  rw [candBest] at h
  rcases hc : c.2 with _ | idx
  · rw [hc] at h; cases h
  · rw [hc] at h
    exact histogram_pos q_hashes idx (off, v) (maxEntry_mem _ _ h)

theorem stepCand_eq (q_hashes : List (ℕ × ℕ)) (st : Option String × ℤ × ℕ)
    (c : String × Option FPIndex) :
    stepCand q_hashes st c =
      match candBest q_hashes c with
      | none => st
      | some (off, votes) =>
          if votes > st.2.2 then (some c.1, off, votes) else st := by
  rw [stepCand, candBest]
  rcases c.2 with _ | idx
  · rfl
  · rfl

theorem candScore_of_candBest (q_hashes : List (ℕ × ℕ))
    (c : String × Option FPIndex) (off : ℤ) (v : ℕ)
    (h : candBest q_hashes c = some (off, v)) :
    candScore q_hashes c = v ∧ candOff q_hashes c = off := by
  rw [candScore, candOff, h]
  exact ⟨rfl, rfl⟩

theorem candScore_of_none (q_hashes : List (ℕ × ℕ))
    (c : String × Option FPIndex) (h : candBest q_hashes c = none) :
    candScore q_hashes c = 0 := by
  rw [candScore, h]
  rfl

/-- The candidate loop, fully characterized: starting from state `st`,
either no candidate beats `st` and the state is unchanged, or the final
state belongs to the first candidate attaining the highest score: every
earlier candidate scores strictly lower, every later one no higher. -/
theorem foldl_stepCand_spec (q_hashes : List (ℕ × ℕ))
    (l : List (String × Option FPIndex)) (st : Option String × ℤ × ℕ) :
    (l.foldl (stepCand q_hashes) st = st ∧
      ∀ c ∈ l, candScore q_hashes c ≤ st.2.2) ∨
    (∃ l₁ c l₂, l = l₁ ++ c :: l₂ ∧
      l.foldl (stepCand q_hashes) st =
        (some c.1, candOff q_hashes c, candScore q_hashes c) ∧
      st.2.2 < candScore q_hashes c ∧
      (∀ d ∈ l₁, candScore q_hashes d < candScore q_hashes c) ∧
      (∀ d ∈ l₂, candScore q_hashes d ≤ candScore q_hashes c)) := by
  induction l generalizing st with
  | nil => exact Or.inl ⟨rfl, by simp⟩
  | cons c rest ih =>
      rw [List.foldl_cons]
      rcases hcb : candBest q_hashes c with _ | ⟨off, v⟩
      · have hstep : stepCand q_hashes st c = st := by
          rw [stepCand_eq, hcb]
        have hsc : candScore q_hashes c = 0 := candScore_of_none _ _ hcb
        rw [hstep]
        rcases ih st with ⟨hfold, hall⟩ | ⟨l₁, w, l₂, hdec, hfold, hgt, he, hl⟩
        · refine Or.inl ⟨hfold, ?_⟩
          intro d hd
          rcases List.mem_cons.mp hd with h | h
          · rw [h, hsc]; exact Nat.zero_le _
          · exact hall d h
        · refine Or.inr ⟨c :: l₁, w, l₂, by rw [hdec, List.cons_append], hfold,
            hgt, ?_, hl⟩
          intro d hd
          rcases List.mem_cons.mp hd with h | h
          · rw [h, hsc]; omega
          · exact he d h
      · have hv := candBest_score_pos q_hashes c off v hcb
        obtain ⟨hsc, hoff⟩ := candScore_of_candBest q_hashes c off v hcb
        have hproj : ((some c.1, off, v) : Option String × ℤ × ℕ).2.2 = v := rfl
        by_cases hbeat : v > st.2.2
        · have hstep : stepCand q_hashes st c = (some c.1, off, v) := by
            rw [stepCand_eq, hcb]
            simp [hbeat]
          rw [hstep]
          rcases ih (some c.1, off, v) with ⟨hfold, hall⟩ |
            ⟨l₁, w, l₂, hdec, hfold, hgt, he, hl⟩
          · refine Or.inr ⟨[], c, rest, rfl, ?_, ?_, by simp, ?_⟩
            · rw [hfold, hsc, hoff]
            · omega
            · intro d hd
              have := hall d hd
              omega
          · refine Or.inr ⟨c :: l₁, w, l₂, by rw [hdec, List.cons_append],
              hfold, ?_, ?_, hl⟩
            · omega
            · intro d hd
              rcases List.mem_cons.mp hd with h | h
              · rw [h, hsc]
                omega
              · exact he d h
        · have hstep : stepCand q_hashes st c = st := by
            rw [stepCand_eq, hcb]
            simp [hbeat]
          rw [hstep]
          rcases ih st with ⟨hfold, hall⟩ | ⟨l₁, w, l₂, hdec, hfold, hgt, he, hl⟩
          · refine Or.inl ⟨hfold, ?_⟩
            intro d hd
            rcases List.mem_cons.mp hd with h | h
            · rw [h, hsc]; omega
            · exact hall d h
          · refine Or.inr ⟨c :: l₁, w, l₂, by rw [hdec, List.cons_append],
              hfold, hgt, ?_, hl⟩
            intro d hd
            rcases List.mem_cons.mp hd with h | h
            · rw [h, hsc]; omega
            · exact he d h

/-- Specialization to the source's initial state. -/
theorem matchLoop_some (q_hashes : List (ℕ × ℕ))
    (l : List (String × Option FPIndex)) (k : String) (off : ℤ) (v : ℕ)
    (h : matchLoop q_hashes l = (some k, off, v)) :
    ∃ l₁ c l₂, l = l₁ ++ c :: l₂ ∧ c.1 = k ∧
      candOff q_hashes c = off ∧ candScore q_hashes c = v ∧ 0 < v ∧
      (∀ d ∈ l₁, candScore q_hashes d < v) ∧
      (∀ d ∈ l₂, candScore q_hashes d ≤ v) := by
  rcases foldl_stepCand_spec q_hashes l (none, 0, 0) with ⟨hfold, -⟩ |
    ⟨l₁, c, l₂, hdec, hfold, hgt, he, hl⟩
  · rw [matchLoop] at h
    rw [hfold] at h
    cases h
  · rw [matchLoop] at h
    rw [hfold] at h
    obtain ⟨hk, hoff, hv⟩ : some c.1 = some k ∧ candOff q_hashes c = off ∧
        candScore q_hashes c = v := by
      refine ⟨congrArg Prod.fst h, ?_, ?_⟩
      · exact congrArg (fun p => p.2.1) h
      · exact congrArg (fun p => p.2.2) h
    refine ⟨l₁, c, l₂, hdec, Option.some.inj hk, hoff, hv, ?_, ?_, ?_⟩
    · have hz : ((none, 0, 0) : Option String × ℤ × ℕ).2.2 = 0 := rfl
      omega
    · intro d hd; have := he d hd; omega
    · intro d hd; have := hl d hd; omega

/-- When the loop ends with no best key, every candidate scored zero. -/
theorem matchLoop_none (q_hashes : List (ℕ × ℕ))
    (l : List (String × Option FPIndex))
    (h : (matchLoop q_hashes l).1 = none) :
    ∀ c ∈ l, candScore q_hashes c = 0 := by
  rcases foldl_stepCand_spec q_hashes l (none, 0, 0) with ⟨hfold, hall⟩ |
    ⟨l₁, c, l₂, hdec, hfold, hgt, he, hl⟩
  · intro c hc
    have := hall c hc
    have hz : ((none, 0, 0) : Option String × ℤ × ℕ).2.2 = 0 := rfl
    omega
  · rw [matchLoop] at h
    rw [hfold] at h
    cases h

/-! ### Evaluation of the pipeline on concrete signals -/

theorem maxAbs_replicate_zero (n : ℕ) : maxAbs (List.replicate n (0:ℚ)) = 0 := by
  induction n with
  | zero => rfl
  | succ m ih =>
      rw [maxAbs, List.replicate_succ, List.foldl_cons]
      have h0 : max (0:ℚ) |(0:ℚ)| = 0 := by norm_num
      rw [h0]
      exact ih

theorem normalizeSig_replicate_zero (n : ℕ) :
    normalizeSig (List.replicate n (0:ℚ)) = List.replicate n 0 := by
  rw [normalizeSig, maxAbs_replicate_zero]
  norm_num

theorem normalizeSig_length (y : List ℚ) :
    (normalizeSig y).length = y.length := by
  rw [normalizeSig]
  by_cases h : maxAbs y > 0
  · rw [if_pos h, List.length_map]
  · rw [if_neg h]

/-- Frame count of the modelled short-time transform, for a signal at
least one full window long: `ceil((len - N) / H) + 1`, written with
natural division as `(len - N_FFT + (HOP - 1)) / HOP + 1` — scipy's
`padded=True` rounds the last partial window up by zero-padding. -/
theorem compute_peaks_num_frames (y : List ℚ) (hlen : N_FFT ≤ y.length) :
    ((compute_peaks y N_FFT HOP TOP_K).map fun pk => pk.1.length) =
      some ((y.length - N_FFT + (HOP - 1)) / HOP + 1) := by
  simp only [N_FFT, HOP] at hlen ⊢
  simp only [compute_peaks, stftWindows]
  rw [if_neg (by omega)]
  have hmin : min 2048 y.length = 2048 := by omega
  rw [hmin]
  simp only [Option.map_some', Option.some.injEq, List.length_map,
    List.length_range]
  omega

theorem topInsert_zero (i : ℕ) (buf : List (ℚ × ℕ))
    (hb : ∀ q ∈ buf, q.1 = 0) :
    topInsert ((0:ℚ), i) buf = buf ++ [((0:ℚ), i)] := by
  induction buf with
  | nil => rfl
  | cons q rest ih =>
      rw [topInsert]
      have hq : q.1 = 0 := hb q (List.mem_cons_self ..)
      rw [if_neg (by rw [hq]; norm_num)]
      rw [ih (fun x hx => hb x (List.mem_cons_of_mem _ hx)), List.cons_append]

theorem foldl_topInsert_zero (l : List (ℕ × ℚ)) (hl : ∀ p ∈ l, p.2 = 0)
    (buf : List (ℚ × ℕ)) (hlen : buf.length = 5) (hb : ∀ q ∈ buf, q.1 = 0) :
    l.foldl (fun b p => (topInsert (p.2, p.1) b).take 5) buf = buf := by
  induction l with
  | nil => rfl
  | cons p rest ih =>
      rw [List.foldl_cons]
      have hp : p.2 = 0 := hl p (List.mem_cons_self ..)
      have hstep : (topInsert (p.2, p.1) buf).take 5 = buf := by
        rw [hp, topInsert_zero p.1 buf hb, ← hlen, List.take_left]
      rw [hstep]
      exact ih (fun x hx => hl x (List.mem_cons_of_mem _ hx))

theorem topKIdx_replicate_zero :
    topKIdx TOP_K (List.replicate 1025 (0:ℚ)) = [0, 1, 2, 3, 4] := by
  rw [topKIdx, TOP_K]
  have hsplit : List.replicate 1025 (0:ℚ) =
      List.replicate 5 0 ++ List.replicate 1020 0 := by
    rw [← List.replicate_add]
  rw [hsplit, List.enum_append, List.foldl_append]
  have h5 : (List.replicate 5 (0:ℚ)).enum.foldl
      (fun buf p => (topInsert (p.2, p.1) buf).take 5) [] =
      [((0:ℚ), 0), (0, 1), (0, 2), (0, 3), (0, 4)] := by decide
  rw [h5]
  have hrest : ((List.replicate 1020 (0:ℚ)).enumFrom
      (List.replicate 5 (0:ℚ)).length).foldl
      (fun buf p => (topInsert (p.2, p.1) buf).take 5)
      [((0:ℚ), 0), (0, 1), (0, 2), (0, 3), (0, 4)] =
      [((0:ℚ), 0), (0, 1), (0, 2), (0, 3), (0, 4)] := by
    refine foldl_topInsert_zero _ ?_ _ rfl ?_
    · intro p hp
      have : p.2 ∈ List.replicate 1020 (0:ℚ) := by
        rw [← List.enumFrom_map_snd (List.replicate 5 (0:ℚ)).length
          (List.replicate 1020 (0:ℚ))]
        exact List.mem_map_of_mem _ hp
      exact List.eq_of_mem_replicate this
    · intro q hq
      simp only [List.mem_cons, List.not_mem_nil, or_false] at hq
      rcases hq with rfl | rfl | rfl | rfl | rfl <;> rfl
  rw [hrest]
  rfl

theorem specMag_replicate_zero :
    (specMag 2048 (List.replicate 2048 (0:ℚ))).map log1pQ =
      List.replicate 1025 (0:ℚ) := by
  rw [specMag, List.take_replicate, List.map_replicate, List.map_replicate]
  norm_num [log1pQ]

theorem stftWindows_replicate_zero (L : ℕ) (hL : 2048 ≤ L) :
    stftWindows (List.replicate L (0:ℚ)) 2048 1536 =
      some (List.replicate ((L - 2048 + 511) / 512 + 1)
        (List.replicate 2048 (0:ℚ))) := by
  simp only [stftWindows, List.length_replicate]
  rw [if_neg (by omega)]
  have hmin : min 2048 L = 2048 := by omega
  rw [hmin, ← List.replicate_add]
  refine congrArg some (List.eq_replicate_iff.mpr ⟨?_, ?_⟩)
  · simp only [List.length_map, List.length_range]
    omega
  · intro w hw
    simp only [List.mem_map, List.mem_range] at hw
    obtain ⟨i, hi, hw⟩ := hw
    rw [← hw, List.drop_replicate, List.take_replicate]
    congr 1
    omega

theorem compute_peaks_replicate_zero (L : ℕ) (hL : 2048 ≤ L) :
    compute_peaks (List.replicate L (0:ℚ)) N_FFT HOP TOP_K =
      some (List.replicate ((L - 2048 + 511) / 512 + 1) [0, 1, 2, 3, 4],
        HOP) := by
  rw [compute_peaks, show N_FFT - HOP = 1536 from rfl,
    show N_FFT = 2048 from rfl, stftWindows_replicate_zero L hL]
  simp only [Option.map_some', List.map_replicate, specMag_replicate_zero,
    topKIdx_replicate_zero]

/-- Evaluating `match_query` symbolically: once the spectral stage is
known to return `(peaks, hop)` and the loop result is known, the final
triple follows (proved at an abstract signal so that the kernel never
re-evaluates a long concrete signal). -/
theorem match_query_eval (sr : ℕ) (y : List ℚ)
    (inds : List (String × Option FPIndex)) (peaks : List (List ℕ)) (hop : ℕ)
    (hcp : compute_peaks (normalizeSig y) N_FFT HOP TOP_K = some (peaks, hop))
    (hne : ¬ build_hashes peaks FAN_OUT MIN_DT MAX_DT = [])
    (k : String) (off : ℤ) (v : ℕ)
    (hml : matchLoop (build_hashes peaks FAN_OUT MIN_DT MAX_DT) inds =
      (some k, off, v)) :
    match_query sr y inds =
      some (some k, ((off * (hop : ℤ) : ℤ) : ℚ) / (sr : ℚ),
        min 1 ((v : ℚ) /
          ((max 1 (build_hashes peaks FAN_OUT MIN_DT MAX_DT).length : ℕ) : ℚ))) := by
  unfold match_query
  rw [hcp]
  simp only
  rw [if_neg hne, hml]

/-- The no-match outcome of `match_query`, symbolically: if the candidate
loop ends with no best key (which also covers an empty query hash list),
the result is `(none, 0.0, 0.0)`. -/
theorem match_query_eval_none (sr : ℕ) (y : List ℚ)
    (inds : List (String × Option FPIndex)) (peaks : List (List ℕ)) (hop : ℕ)
    (hcp : compute_peaks (normalizeSig y) N_FFT HOP TOP_K = some (peaks, hop))
    (hml : (matchLoop (build_hashes peaks FAN_OUT MIN_DT MAX_DT) inds).1 = none) :
    match_query sr y inds = some (none, 0, 0) := by
  unfold match_query
  rw [hcp]
  simp only
  by_cases hq : build_hashes peaks FAN_OUT MIN_DT MAX_DT = []
  · rw [if_pos hq]
  · rw [if_neg hq]
    rcases hm : matchLoop (build_hashes peaks FAN_OUT MIN_DT MAX_DT) inds with
      ⟨bk, a, b⟩
    rw [hm] at hml
    cases bk
    · rfl
    · cases hml

/-- The spectral stage on the silent 2560-sample signal: two frames, each
with peak bins `[0,1,2,3,4]`. -/
theorem cpz2560 :
    compute_peaks (normalizeSig (List.replicate 2560 (0:ℚ))) N_FFT HOP TOP_K =
      some (List.replicate 2 [0, 1, 2, 3, 4], HOP) := by
  rw [normalizeSig_replicate_zero, compute_peaks_replicate_zero 2560 (by omega)]

theorem queryHashes_eval (y : List ℚ) (peaks : List (List ℕ)) (hop : ℕ)
    (hcp : compute_peaks (normalizeSig y) N_FFT HOP TOP_K = some (peaks, hop)) :
    queryHashes y = build_hashes peaks FAN_OUT MIN_DT MAX_DT := by
  unfold queryHashes
  rw [hcp]

/-- A silent (all-zero) query signal of 2560 samples still produces
hashes after peak extraction, and those hashes can match a candidate
index: against a candidate whose index contains the packed hash of the
silent query's peak pair `(0, 0)` at delta 1, the match succeeds with a
positive confidence. -/
theorem matchEval1 :
    match_query 16000 (List.replicate 2560 (0:ℚ))
      [("ref", some ⟨16000, 512, [(packHash 0 0 1, [7])]⟩)] =
      some (some "ref", 28 / 125, 1 / 25) := by
  have h := match_query_eval 16000 (List.replicate 2560 (0:ℚ))
    [("ref", some ⟨16000, 512, [(packHash 0 0 1, [7])]⟩)]
    (List.replicate 2 [0, 1, 2, 3, 4]) HOP cpz2560
    (by decide) "ref" 7 1 (by decide)
  rw [h]
  have hlen : (build_hashes (List.replicate 2 [0, 1, 2, 3, 4])
      FAN_OUT MIN_DT MAX_DT).length = 25 := by decide
  rw [hlen]
  norm_num [HOP]

/-- Against a loadable candidate whose index shares no hash with the
query, the silent 2560-sample query yields no match. -/
theorem matchEval4 :
    match_query 16000 (List.replicate 2560 (0:ℚ))
      [("noise", some ⟨16000, 512, []⟩)] = some (none, 0, 0) :=
  match_query_eval_none 16000 (List.replicate 2560 (0:ℚ))
    [("noise", some ⟨16000, 512, []⟩)] (List.replicate 2 [0, 1, 2, 3, 4]) HOP
    cpz2560 (by decide)

/-! ### Claims C2 and C3: silence and frame counts -/

theorem compute_peaks_some (y : List ℚ) (h : 1536 < y.length) :
    ∃ pk, compute_peaks y N_FFT HOP TOP_K = some pk := by
  simp only [compute_peaks, stftWindows, show N_FFT - HOP = 1536 from rfl]
  rw [if_neg (by omega)]
  exact ⟨_, rfl⟩

/-- With a single spectral frame there is no target frame at distance
`dt ≥ MIN_DT = 1`, so no hash is emitted. -/
theorem build_hashes_single (p : List ℕ) (fan_out max_dt : ℕ) :
    build_hashes [p] fan_out MIN_DT max_dt = [] := by
  have hd : (List.range (min max_dt 1)).drop MIN_DT = [] := by
    apply List.drop_eq_nil_of_le
    rw [List.length_range, MIN_DT]
    omega
  simp [build_hashes, hd]

theorem stepCand_nil (st : Option String × ℤ × ℕ)
    (c : String × Option FPIndex) : stepCand [] st c = st := by
  rw [stepCand]
  rcases c.2 with _ | idx
  · rfl
  · rfl

/-- With no query hashes no candidate collects votes. -/
theorem matchLoop_nil_hashes (inds : List (String × Option FPIndex)) :
    matchLoop [] inds = (none, 0, 0) := by
  rw [matchLoop]
  induction inds with
  | nil => rfl
  | cons c rest ih =>
      rw [List.foldl_cons, stepCand_nil]
      exact ih

/-- C2 (amended): an all-zero query signal spanning at least one analysis
window is passed through normalization unchanged and `match` over an
empty candidate collection returns `(none, 0.0, 0.0)`; the claim's
"regardless of which candidate indices are supplied" fails (see the
counterexample), because a silent query spanning two frames still
produces hashes. -/
theorem claim_C2_silent (sr : ℕ) (y : List ℚ) (hz : ∀ a ∈ y, a = 0)
    (hlen : N_FFT ≤ y.length) : match_query sr y [] = some (none, 0, 0) := by
  obtain ⟨⟨peaks, hop⟩, hcp⟩ := compute_peaks_some (normalizeSig y)
    (by rw [normalizeSig_length]; simp only [N_FFT] at hlen; omega)
  exact match_query_eval_none sr y [] peaks hop hcp rfl

/-- Witness for the amended C2 at a concrete 2048-sample silent signal. -/
theorem claim_C2_witness :
    match_query 16000 (List.replicate 2048 (0:ℚ)) [] = some (none, 0, 0) :=
  claim_C2_silent 16000 (List.replicate 2048 (0:ℚ))
    (fun a ha => List.eq_of_mem_replicate ha)
    (by rw [List.length_replicate]; norm_num [N_FFT])

/-- C2 (counterexample): the claim "for every all-zero query signal,
match returns (none, 0.0, 0.0), regardless of which candidate indices are
supplied" is false: the silent 2560-sample query against a candidate
whose index contains the hash `packHash 0 0 1` returns that candidate
with positive confidence. -/
theorem claim_C2_counterexample :
    match_query 16000 (List.replicate 2560 (0:ℚ))
      [("ref", some ⟨16000, 512, [(packHash 0 0 1, [7])]⟩)] =
      some (some "ref", 28 / 125, 1 / 25) := matchEval1

/-- C3 (amended): for a signal at least one window long the spectral
analyzer produces `ceil((len - N) / H) + 1` frames — the final partial
window is zero-padded (scipy `padded=True`), not dropped, so the claimed
`floor((len - N) / H) + 1` is wrong whenever `H` does not divide
`len - N`; a signal of exactly one window yields one frame, zero hashes,
and `match` reports `(none, 0.0, 0.0)` rather than an error. -/
theorem claim_C3_frames (y : List ℚ) (hlen : N_FFT ≤ y.length) :
    ((compute_peaks y N_FFT HOP TOP_K).map fun pk => pk.1.length) =
      some ((y.length - N_FFT + (HOP - 1)) / HOP + 1) ∧
    ∀ sr indices, y.length = N_FFT →
      match_query sr y indices = some (none, 0, 0) := by
  refine ⟨compute_peaks_num_frames y hlen, ?_⟩
  intro sr indices h2048
  simp only [N_FFT] at h2048
  obtain ⟨⟨peaks, hop⟩, hcp⟩ := compute_peaks_some (normalizeSig y)
    (by rw [normalizeSig_length]; omega)
  have hl := compute_peaks_num_frames (normalizeSig y)
    (by rw [normalizeSig_length, h2048]; simp [N_FFT])
  rw [hcp] at hl
  simp only [Option.map_some', Option.some.injEq, normalizeSig_length,
    h2048, N_FFT, HOP] at hl
  have h1 : peaks.length = 1 := by omega
  obtain ⟨p, hp⟩ : ∃ p, peaks = [p] := by
    rcases peaks with _ | ⟨a, _ | ⟨b, t⟩⟩
    · cases h1
    · exact ⟨a, rfl⟩
    · simp at h1
  subst hp
  apply match_query_eval_none sr y indices [p] hop hcp
  rw [build_hashes_single, matchLoop_nil_hashes]

/-- Witness for the amended C3 at a concrete 2048-sample signal: one
frame, and `match` (with a failing candidate supplied) returns no match
rather than an error. -/
theorem claim_C3_witness :
    ((compute_peaks (List.replicate 2048 (0:ℚ)) N_FFT HOP TOP_K).map
      fun pk => pk.1.length) = some 1 ∧
    match_query 16000 (List.replicate 2048 (0:ℚ)) [("a", none)] =
      some (none, 0, 0) := by
  have h := claim_C3_frames (List.replicate 2048 (0:ℚ))
    (by rw [List.length_replicate]; norm_num [N_FFT])
  constructor
  · rw [h.1]
    norm_num [N_FFT, HOP]
  · exact h.2 16000 [("a", none)] (by rw [List.length_replicate]; norm_num [N_FFT])

/-- C3 (counterexample): at 2049 samples the analyzer produces 2 frames
(the 513-sample tail is zero-padded into a second window), while the
claimed `floor((len - N) / H) + 1` predicts 1. -/
theorem claim_C3_counterexample :
    ((compute_peaks (List.replicate 2049 (0:ℚ)) N_FFT HOP TOP_K).map
      fun pk => pk.1.length) = some 2 ∧ (2049 - N_FFT) / HOP + 1 = 1 := by
  constructor
  · rw [compute_peaks_num_frames (List.replicate 2049 (0:ℚ))
      (by rw [List.length_replicate]; norm_num [N_FFT])]
    norm_num [N_FFT, HOP]
  · norm_num [N_FFT, HOP]

/-! ### Claims C5, C6, C7, C9: the matcher -/

theorem candBest_loaded (q_hashes : List (ℕ × ℕ)) (c : String × Option FPIndex)
    (idx : FPIndex) (h : c.2 = some idx) :
    candBest q_hashes c = maxEntry (histogram q_hashes idx) := by
  rw [candBest, h]

/-- C5: whenever `match_query` returns, the confidence component lies in
`[0, 1]`; and when a winner exists it equals
`min 1 (winning_score / total_query_hash_count)`, the winning score being
the best vote count of the candidate loop. -/
theorem claim_C5_confidence (sr : ℕ) (y : List ℚ)
    (indices : List (String × Option FPIndex)) (r : Option String × ℚ × ℚ)
    (hr : match_query sr y indices = some r) :
    (0 ≤ r.2.2 ∧ r.2.2 ≤ 1) ∧
    ∀ k, r.1 = some k →
      r.2.2 = min 1 (((matchLoop (queryHashes y) indices).2.2 : ℚ) /
        ((queryHashes y).length : ℚ)) := by
  rcases hcp : compute_peaks (normalizeSig y) N_FFT HOP TOP_K with _ | ⟨peaks, hop⟩
  · unfold match_query at hr
    rw [hcp] at hr
    simp at hr
  · unfold match_query at hr
    rw [hcp] at hr
    simp only at hr
    have hqh := queryHashes_eval y peaks hop hcp
    by_cases hq : build_hashes peaks FAN_OUT MIN_DT MAX_DT = []
    · rw [if_pos hq] at hr
      obtain rfl := Option.some.inj hr
      refine ⟨by norm_num, ?_⟩
      intro k hk
      cases hk
    · rw [if_neg hq] at hr
      rcases hml : matchLoop (build_hashes peaks FAN_OUT MIN_DT MAX_DT) indices
        with ⟨bk, boff, bv⟩
      rw [hml] at hr
      cases bk with
      | none =>
          obtain rfl := Option.some.inj hr
          refine ⟨by norm_num, ?_⟩
          intro k hk
          cases hk
      | some key =>
          obtain rfl := Option.some.inj hr
          have hlen1 : 1 ≤ (build_hashes peaks FAN_OUT MIN_DT MAX_DT).length :=
            List.length_pos.mpr hq
          have hmax : max 1 (build_hashes peaks FAN_OUT MIN_DT MAX_DT).length =
              (build_hashes peaks FAN_OUT MIN_DT MAX_DT).length :=
            Nat.max_eq_right hlen1
          constructor
          · constructor
            · refine le_min (by norm_num) (div_nonneg ?_ ?_)
              · exact Nat.cast_nonneg bv
              · exact Nat.cast_nonneg _
            · exact min_le_left _ _
          · intro k hk
            rw [hqh, hml]
            show min 1 ((bv : ℚ) / ((max 1
              (build_hashes peaks FAN_OUT MIN_DT MAX_DT).length : ℕ) : ℚ)) = _
            rw [hmax]

/-- Witness for C5 at the concrete silent-query match of `matchEval1`. -/
theorem claim_C5_witness :
    (0 ≤ ((1 : ℚ) / 25) ∧ ((1 : ℚ) / 25) ≤ 1) ∧
    (1 : ℚ) / 25 = min 1
      (((matchLoop (queryHashes (List.replicate 2560 (0:ℚ)))
        [("ref", some ⟨16000, 512, [(packHash 0 0 1, [7])]⟩)]).2.2 : ℚ) /
        ((queryHashes (List.replicate 2560 (0:ℚ))).length : ℚ)) := by
  have h := claim_C5_confidence 16000 (List.replicate 2560 (0:ℚ))
    [("ref", some ⟨16000, 512, [(packHash 0 0 1, [7])]⟩)]
    (some "ref", 28 / 125, 1 / 25) matchEval1
  exact ⟨h.1, h.2 "ref" rfl⟩

/-- C6: when `match_query` names a winner, that winner is the first
candidate (in the iteration order over the candidate collection)
attaining the highest score: all earlier candidates score strictly
lower, all later ones no higher, and the winner's score is positive
(its histogram is non-empty). -/
theorem claim_C6_best (sr : ℕ) (y : List ℚ)
    (indices : List (String × Option FPIndex)) (k : String) (off conf : ℚ)
    (hr : match_query sr y indices = some (some k, off, conf)) :
    ∃ l₁ c l₂, indices = l₁ ++ c :: l₂ ∧ c.1 = k ∧
      0 < candScore (queryHashes y) c ∧
      (∀ d ∈ l₁, candScore (queryHashes y) d < candScore (queryHashes y) c) ∧
      (∀ d ∈ l₂, candScore (queryHashes y) d ≤ candScore (queryHashes y) c) := by
  rcases hcp : compute_peaks (normalizeSig y) N_FFT HOP TOP_K with _ | ⟨peaks, hop⟩
  · unfold match_query at hr
    rw [hcp] at hr
    simp at hr
  · unfold match_query at hr
    rw [hcp] at hr
    simp only at hr
    have hqh := queryHashes_eval y peaks hop hcp
    by_cases hq : build_hashes peaks FAN_OUT MIN_DT MAX_DT = []
    · rw [if_pos hq] at hr
      simp at hr
    · rw [if_neg hq] at hr
      rcases hml : matchLoop (build_hashes peaks FAN_OUT MIN_DT MAX_DT) indices
        with ⟨bk, boff, bv⟩
      rw [hml] at hr
      cases bk with
      | none => simp at hr
      | some key =>
          have hkey : key = k := by
            have h1 := congrArg (fun p => p.1) (Option.some.inj hr)
            exact Option.some.inj h1
          obtain ⟨l₁, c, l₂, hdec, hck, hcoff, hcscore, hpos, hearly, hlate⟩ :=
            matchLoop_some _ indices key boff bv hml
          rw [hqh]
          refine ⟨l₁, c, l₂, hdec, hck.trans hkey, ?_, ?_, ?_⟩
          · omega
          · intro d hd
            have := hearly d hd
            omega
          · intro d hd
            have := hlate d hd
            omega

/-- Witness for C6 at the concrete silent-query match of `matchEval1`. -/
theorem claim_C6_witness :
    ∃ l₁ c l₂,
      ([("ref", some (⟨16000, 512, [(packHash 0 0 1, [7])]⟩ : FPIndex))] :
        List (String × Option FPIndex)) = l₁ ++ c :: l₂ ∧ c.1 = "ref" ∧
      0 < candScore (queryHashes (List.replicate 2560 (0:ℚ))) c ∧
      (∀ d ∈ l₁, candScore (queryHashes (List.replicate 2560 (0:ℚ))) d <
        candScore (queryHashes (List.replicate 2560 (0:ℚ))) c) ∧
      (∀ d ∈ l₂, candScore (queryHashes (List.replicate 2560 (0:ℚ))) d ≤
        candScore (queryHashes (List.replicate 2560 (0:ℚ))) c) :=
  claim_C6_best 16000 (List.replicate 2560 (0:ℚ))
    [("ref", some ⟨16000, 512, [(packHash 0 0 1, [7])]⟩)] "ref"
    (28 / 125) (1 / 25) matchEval1

theorem matchLoop_skip (q_hashes : List (ℕ × ℕ)) (k : String)
    (l₁ l₂ : List (String × Option FPIndex)) :
    matchLoop q_hashes (l₁ ++ (k, none) :: l₂) = matchLoop q_hashes (l₁ ++ l₂) := by
  rw [matchLoop, matchLoop, List.foldl_append, List.foldl_append,
    List.foldl_cons]
  rfl

/-- C7: a candidate whose index fails to load is skipped — the match
result is the same as if the candidate had not been supplied at all (so a
load failure never aborts the match) — and a returned `none` key means
every remaining candidate that did load has an empty offset histogram. -/
theorem claim_C7_skip (sr : ℕ) (y : List ℚ) (k : String)
    (l₁ l₂ : List (String × Option FPIndex)) :
    match_query sr y (l₁ ++ (k, none) :: l₂) = match_query sr y (l₁ ++ l₂) ∧
    ∀ r, match_query sr y (l₁ ++ (k, none) :: l₂) = some r → r.1 = none →
      ∀ c ∈ l₁ ++ l₂, ∀ idx, c.2 = some idx →
        histogram (queryHashes y) idx = [] := by
  constructor
  · rcases hcp : compute_peaks (normalizeSig y) N_FFT HOP TOP_K with _ | ⟨peaks, hop⟩
    · unfold match_query
      rw [hcp]
    · unfold match_query
      rw [hcp]
      simp only
      rw [matchLoop_skip]
  · intro r hr hrnone c hc idx hcidx
    rcases hcp : compute_peaks (normalizeSig y) N_FFT HOP TOP_K with _ | ⟨peaks, hop⟩
    · unfold match_query at hr
      rw [hcp] at hr
      simp at hr
    · unfold match_query at hr
      rw [hcp] at hr
      simp only at hr
      have hqh := queryHashes_eval y peaks hop hcp
      by_cases hq : build_hashes peaks FAN_OUT MIN_DT MAX_DT = []
      · rw [hqh, hq]
        rfl
      · rw [if_neg hq] at hr
        rcases hml : matchLoop (build_hashes peaks FAN_OUT MIN_DT MAX_DT)
          (l₁ ++ (k, none) :: l₂) with ⟨bk, boff, bv⟩
        rw [hml] at hr
        cases bk with
        | some key =>
            obtain rfl := Option.some.inj hr
            cases hrnone
        | none =>
            have hall := matchLoop_none (build_hashes peaks FAN_OUT MIN_DT MAX_DT)
              (l₁ ++ (k, none) :: l₂) (by rw [hml])
            have hcmem : c ∈ l₁ ++ (k, none) :: l₂ := by
              rcases List.mem_append.mp hc with h | h
              · exact List.mem_append.mpr (Or.inl h)
              · exact List.mem_append.mpr (Or.inr (List.mem_cons_of_mem _ h))
            have hzero := hall c hcmem
            rw [candScore, candBest_loaded _ c idx hcidx] at hzero
            rcases hmx : maxEntry (histogram
              (build_hashes peaks FAN_OUT MIN_DT MAX_DT) idx) with _ | e
            · rw [hqh]
              exact (maxEntry_eq_none _).mp hmx
            · rw [hmx] at hzero
              have h1 := histogram_pos (build_hashes peaks FAN_OUT MIN_DT MAX_DT)
                idx e (maxEntry_mem _ _ hmx)
              simp at hzero
              omega

/-- Witness for C7: dropping an unloadable candidate from a concrete
candidate list leaves the result unchanged, and with a no-match result
the loaded candidate's histogram is indeed empty. -/
theorem claim_C7_witness :
    match_query 16000 (List.replicate 2560 (0:ℚ))
        [("bad", none), ("noise", some ⟨16000, 512, []⟩)] =
      match_query 16000 (List.replicate 2560 (0:ℚ))
        [("noise", some ⟨16000, 512, []⟩)] ∧
    histogram (queryHashes (List.replicate 2560 (0:ℚ))) ⟨16000, 512, []⟩ = [] := by
  have h := claim_C7_skip 16000 (List.replicate 2560 (0:ℚ)) "bad" []
    [("noise", some ⟨16000, 512, []⟩)]
  refine ⟨h.1, ?_⟩
  have hres : match_query 16000 (List.replicate 2560 (0:ℚ))
      ([] ++ ("bad", none) :: [("noise", some ⟨16000, 512, []⟩)]) =
      some (none, 0, 0) := by
    rw [h.1]
    exact matchEval4
  exact h.2 (none, 0, 0) hres rfl ("noise", some ⟨16000, 512, []⟩)
    (by simp) ⟨16000, 512, []⟩ rfl

/-- C9: a returned non-none key is one of the supplied candidate keys,
and then the returned confidence is strictly positive. -/
theorem claim_C9_key (sr : ℕ) (y : List ℚ)
    (indices : List (String × Option FPIndex)) (r : Option String × ℚ × ℚ)
    (hr : match_query sr y indices = some r) (k : String) (hk : r.1 = some k) :
    k ∈ indices.map Prod.fst ∧ 0 < r.2.2 := by
  rcases hcp : compute_peaks (normalizeSig y) N_FFT HOP TOP_K with _ | ⟨peaks, hop⟩
  · unfold match_query at hr
    rw [hcp] at hr
    simp at hr
  · unfold match_query at hr
    rw [hcp] at hr
    simp only at hr
    by_cases hq : build_hashes peaks FAN_OUT MIN_DT MAX_DT = []
    · rw [if_pos hq] at hr
      obtain rfl := Option.some.inj hr
      cases hk
    · rw [if_neg hq] at hr
      rcases hml : matchLoop (build_hashes peaks FAN_OUT MIN_DT MAX_DT) indices
        with ⟨bk, boff, bv⟩
      rw [hml] at hr
      cases bk with
      | none =>
          obtain rfl := Option.some.inj hr
          cases hk
      | some key =>
          obtain rfl := Option.some.inj hr
          obtain rfl : key = k := Option.some.inj hk
          obtain ⟨l₁, c, l₂, hdec, hck, -, -, hpos, -, -⟩ :=
            matchLoop_some _ indices _ boff bv hml
          constructor
          · rw [hdec]
            exact List.mem_map.mpr ⟨c, by simp, hck⟩
          · have hb : (0 : ℚ) < (bv : ℚ) := by exact_mod_cast hpos
            have hdpos : (0 : ℚ) < ((max 1
                (build_hashes peaks FAN_OUT MIN_DT MAX_DT).length : ℕ) : ℚ) := by
              have h1 : 0 < max 1
                  (build_hashes peaks FAN_OUT MIN_DT MAX_DT).length := by omega
              exact_mod_cast h1
            exact lt_min one_pos (div_pos hb hdpos)

/-- Witness for C9 at the concrete silent-query match of `matchEval1`. -/
theorem claim_C9_witness :
    "ref" ∈ ([("ref", some (⟨16000, 512, [(packHash 0 0 1, [7])]⟩ : FPIndex))].map
      (Prod.fst (α := String) (β := Option FPIndex))) ∧
    (0 : ℚ) < 1 / 25 :=
  claim_C9_key 16000 (List.replicate 2560 (0:ℚ))
    [("ref", some ⟨16000, 512, [(packHash 0 0 1, [7])]⟩)]
    (some "ref", 28 / 125, 1 / 25) matchEval1 "ref" rfl

end EarPeace
